import Mathlib

/-!
Verification of the chacharand.js ChaCha random number generator library.

The development shallowly embeds the TypeScript source (src/index.ts, primary
variant) into Lean: Uint32Array state becomes a list of naturals each kept
below 2^32 by explicit masking, JavaScript 32-bit operations become natural
number arithmetic with explicit % 2^32, bigints become plain naturals with
% 2^64 where the source masks with U64_MASK, and code that throws returns
an error-signalling value. Definitions follow the source line by line;
definitions whose names start with spec follow the natural-language
specification instead and are compared with the source-derived ones.
-/

set_option linter.unusedVariables false
set_option maxRecDepth 100000

namespace ChaChaRand

/-- Embedding of rotr32 (src/index.ts line 8): JavaScript
((x >>> n) | (x << (32 - n))) >>> 0. The unsigned right shift first coerces
its operand to 32 bits, the left shift is truncated to 32 bits, and the
final >>> 0 is the identity on the resulting 32-bit value. -/
def rotr32 (x n : Nat) : Nat :=
  ((x % 2 ^ 32) >>> n) ||| ((x <<< (32 - n)) % 2 ^ 32)

/-- Left rotation of a 32-bit word, following the specification text
(rotl with all arithmetic modulo 2^32; the input word is a 32-bit value,
so it is truncated to 32 bits). -/
def rotl32 (x n : Nat) : Nat :=
  ((x % 2 ^ 32) * 2 ^ n + (x % 2 ^ 32) / 2 ^ (32 - n)) % 2 ^ 32

/-- Embedding of ChaChaCore.quarterRound (src/index.ts lines 53-58): eight
sequential in-place updates of the 16-word state at indices a, b, c, d. -/
def quarterRound (st : List Nat) (a b c d : Nat) : List Nat :=
  let s1 := st.set a ((st.getD a 0 + st.getD b 0) % 2 ^ 32)
  let s2 := s1.set d (rotr32 (s1.getD d 0 ^^^ s1.getD a 0) 16)
  let s3 := s2.set c ((s2.getD c 0 + s2.getD d 0) % 2 ^ 32)
  let s4 := s3.set b (rotr32 (s3.getD b 0 ^^^ s3.getD c 0) 20)
  let s5 := s4.set a ((s4.getD a 0 + s4.getD b 0) % 2 ^ 32)
  let s6 := s5.set d (rotr32 (s5.getD d 0 ^^^ s5.getD a 0) 24)
  let s7 := s6.set c ((s6.getD c 0 + s6.getD d 0) % 2 ^ 32)
  s7.set b (rotr32 (s7.getD b 0 ^^^ s7.getD c 0) 25)

/-- Embedding of ChaChaCore.coreRound (src/index.ts lines 60-69): one double
round, four column quarter-rounds followed by four diagonal quarter-rounds. -/
def coreRound (st : List Nat) : List Nat :=
  let s1 := quarterRound st 0 4 8 12
  let s2 := quarterRound s1 1 5 9 13
  let s3 := quarterRound s2 2 6 10 14
  let s4 := quarterRound s3 3 7 11 15
  let s5 := quarterRound s4 0 5 10 15
  let s6 := quarterRound s5 1 6 11 12
  let s7 := quarterRound s6 2 7 8 13
  quarterRound s7 3 4 9 14

/-- Iterated application of coreRound, as in the loop
for (let i = 0; i < this.rounds; i++) coreRound(workingState)
(src/index.ts lines 78-80). -/
def coreRoundIter : Nat → List Nat → List Nat
  | 0, st => st
  | n + 1, st => coreRoundIter n (coreRound st)

/-- Modelled from the specification text of the quarter-round (spec §4.1):
a += b; d = rotl(d^a, 16); c += d; b = rotl(b^c, 12); a += b;
d = rotl(d^a, 8); c += d; b = rotl(b^c, 7), all arithmetic modulo 2^32,
applied in place to the state words at indices a, b, c, d. -/
def specQuarterRound (st : List Nat) (a b c d : Nat) : List Nat :=
  let s1 := st.set a ((st.getD a 0 + st.getD b 0) % 2 ^ 32)
  let s2 := s1.set d (rotl32 (s1.getD d 0 ^^^ s1.getD a 0) 16)
  let s3 := s2.set c ((s2.getD c 0 + s2.getD d 0) % 2 ^ 32)
  let s4 := s3.set b (rotl32 (s3.getD b 0 ^^^ s3.getD c 0) 12)
  let s5 := s4.set a ((s4.getD a 0 + s4.getD b 0) % 2 ^ 32)
  let s6 := s5.set d (rotl32 (s5.getD d 0 ^^^ s5.getD a 0) 8)
  let s7 := s6.set c ((s6.getD c 0 + s6.getD d 0) % 2 ^ 32)
  s7.set b (rotl32 (s7.getD b 0 ^^^ s7.getD c 0) 7)

/-- Modelled from the specification text (spec §4.1): the column round,
quarter-rounds on index groups (0,4,8,12), (1,5,9,13), (2,6,10,14),
(3,7,11,15). -/
def specColumnRound (st : List Nat) : List Nat :=
  let s1 := specQuarterRound st 0 4 8 12
  let s2 := specQuarterRound s1 1 5 9 13
  let s3 := specQuarterRound s2 2 6 10 14
  specQuarterRound s3 3 7 11 15

/-- Modelled from the specification text (spec §4.1): the diagonal round,
quarter-rounds on index groups (0,5,10,15), (1,6,11,12), (2,7,8,13),
(3,4,9,14). -/
def specDiagonalRound (st : List Nat) : List Nat :=
  let s1 := specQuarterRound st 0 5 10 15
  let s2 := specQuarterRound s1 1 6 11 12
  let s3 := specQuarterRound s2 2 7 8 13
  specQuarterRound s3 3 4 9 14

/-- Modelled from the specification text (spec §4.1): one double round is a
column round followed by a diagonal round. -/
def specDoubleRound (st : List Nat) : List Nat :=
  specDiagonalRound (specColumnRound st)

/-- Modelled from the specification text (spec §4.1): exactly doubleRounds
iterations of (column round, diagonal round), no early exit. -/
def specPermute : Nat → List Nat → List Nat
  | 0, st => st
  | n + 1, st => specPermute n (specDoubleRound st)

/-- Little-endian 32-bit read of four bytes at a given offset, as performed
by DataView.getUint32(offset, true) over a Uint8Array. -/
def leU32 (bytes : List Nat) (off : Nat) : Nat :=
  bytes.getD off 0 + bytes.getD (off + 1) 0 * 2 ^ 8 +
    bytes.getD (off + 2) 0 * 2 ^ 16 + bytes.getD (off + 3) 0 * 2 ^ 24

/-- State of ChaChaCore (src/index.ts lines 20-23): the 16-word state array
and the stored double-round count (the constructor stores rounds / 2). -/
structure Core where
  state : List Nat
  rounds : Nat
deriving DecidableEq

/-- Embedding of the ChaChaCore constructor (src/index.ts lines 24-51).
Returns none where the source throws (seed not 32 bytes, nonce not 8 or
12 bytes). A 12-byte nonce is loaded into state words 13, 14, 15 with
word 12 zeroed; an 8-byte nonce into words 14, 15 with words 12, 13 zero. -/
def coreNew (seed nonce : List Nat) (rounds : Nat) : Option Core :=
  if seed.length ≠ 32 then none
  else if nonce.length ≠ 8 ∧ nonce.length ≠ 12 then none
  else
    let st0 := [0x61707865, 0x3320646e, 0x79622d32, 0x6b206574] ++
      (List.range 8).map (fun i => leU32 seed (i * 4)) ++ [0, 0, 0, 0]
    let st :=
      if nonce.length = 12 then
        (((st0.set 13 (leU32 nonce 0)).set 14 (leU32 nonce 4)).set 15
          (leU32 nonce 8)).set 12 0
      else
        (((st0.set 14 (leU32 nonce 0)).set 15 (leU32 nonce 4)).set 12 0).set 13 0
    some { state := st, rounds := rounds / 2 }

/-- One output block (src/index.ts lines 77-84): run the double rounds on a
copy of the block input state and add the input state word-wise mod 2^32. -/
def generateBlock (doubleRounds : Nat) (input : List Nat) : List Nat :=
  let working := coreRoundIter doubleRounds input
  (List.range 16).map (fun i => (working.getD i 0 + input.getD i 0) % 2 ^ 32)

/-- Counter increment between blocks (src/index.ts lines 85-88): increment
the low counter word mod 2^32 and carry into the high word on wrap. -/
def incrCounter (st : List Nat) : List Nat :=
  let s1 := st.set 12 ((st.getD 12 0 + 1) % 2 ^ 32)
  if s1.getD 12 0 = 0 then s1.set 13 ((s1.getD 13 0 + 1) % 2 ^ 32) else s1

/-- The block loop of ChaChaCore.generate (src/index.ts lines 76-89):
produce n consecutive blocks, incrementing the counter after each, and
return the concatenated output together with the final block input state. -/
def generateGo (doubleRounds : Nat) : Nat → List Nat → List Nat × List Nat
  | 0, input => ([], input)
  | n + 1, input =>
      let block := generateBlock doubleRounds input
      let p := generateGo doubleRounds n (incrCounter input)
      (block ++ p.1, p.2)

/-- Embedding of ChaChaCore.generate (src/index.ts lines 71-92) for the
fixed four-block buffer: produce 64 words and write the final counter words
back into state positions 12 and 13. -/
def generate (c : Core) : List Nat × Core :=
  let p := generateGo c.rounds 4 c.state
  (p.1, { c with state := (c.state.set 12 (p.2.getD 12 0)).set 13 (p.2.getD 13 0) })

/-- Embedding of ChaChaCore.getBlockPos (src/index.ts lines 94-98). -/
def getBlockPos (c : Core) : Nat :=
  (c.state.getD 13 0) <<< 32 ||| c.state.getD 12 0

/-- Embedding of ChaChaCore.setBlockPos (src/index.ts lines 100-103). -/
def setBlockPos (c : Core) (value : Nat) : Core :=
  { c with state := (c.state.set 12 (value % 2 ^ 32)).set 13 ((value >>> 32) % 2 ^ 32) }

/-- Embedding of ChaChaCore.getNonce (src/index.ts lines 105-109). -/
def getNonce (c : Core) : Nat :=
  (c.state.getD 15 0) <<< 32 ||| c.state.getD 14 0

/-- Embedding of ChaChaCore.setNonce (src/index.ts lines 111-114). -/
def setNonce (c : Core) (value : Nat) : Core :=
  { c with state := (c.state.set 14 (value % 2 ^ 32)).set 15 ((value >>> 32) % 2 ^ 32) }

/-- State of ChaChaRng (src/index.ts lines 133-137): the core, the 64-word
buffer, the cursor into it, and the configured round count. -/
structure Rng where
  core : Core
  buffer : List Nat
  index : Nat
  rounds : Nat
deriving DecidableEq

/-- Embedding of the private ChaChaRng constructor (src/index.ts lines
139-144): fresh zero buffer and index 64, forcing a refill on first use. -/
def rngNew (c : Core) (rounds : Nat) : Rng :=
  { core := c, buffer := List.replicate 64 0, index := 64, rounds := rounds }

/-- Embedding of ChaChaRng.fromSeed (src/index.ts lines 146-150): default
8-byte all-zero nonce. -/
def fromSeed (seed : List Nat) (rounds : Nat) : Option Rng :=
  (coreNew seed (List.replicate 8 0) rounds).map (fun c => rngNew c rounds)

/-- Embedding of ChaChaRng.refill (src/index.ts lines 174-177). -/
def refill (r : Rng) : Rng :=
  let p := generate r.core
  { r with core := p.2, buffer := p.1, index := 0 }

/-- Embedding of ChaChaRng.nextU32 (src/index.ts lines 179-186): refill when
the cursor has reached the end of the buffer, then return the word at the
cursor and advance it. -/
def nextU32 (r : Rng) : Nat × Rng :=
  let r1 := if r.index ≥ 64 then refill r else r
  (r1.buffer.getD r1.index 0, { r1 with index := r1.index + 1 })

/-- Embedding of ChaChaRng.nextU64 (src/index.ts lines 188-192): two
successive words, first low then high. -/
def nextU64 (r : Rng) : Nat × Rng :=
  let p1 := nextU32 r
  let p2 := nextU32 p1.2
  (p2.1 <<< 32 ||| p1.1, p2.2)

/-- Helper collecting the values of n successive nextU32 calls together
with the final generator state. -/
def nextN : Nat → Rng → List Nat × Rng
  | 0, r => ([], r)
  | n + 1, r =>
      let p := nextU32 r
      let q := nextN n p.2
      (p.1 :: q.1, q.2)

/-- Embedding of ChaChaRng.getWordPos (src/index.ts lines 326-335). The
source computes (bufEndBlock - 4n) & U64_MASK on bigints; for a counter
value below 2^64 this two's-complement masked subtraction equals
(bufEndBlock + 2^64 - 4) % 2^64, which is how it is written here on Nat. -/
def getWordPos (r : Rng) : Nat :=
  let bufEndBlock := getBlockPos r.core
  let bufStartBlock := (bufEndBlock + 2 ^ 64 - 4) % 2 ^ 64
  let blocksConsumed := r.index / 16
  let wordsConsumedInBlock := r.index % 16
  let currentBlock := (bufStartBlock + blocksConsumed) % 2 ^ 64
  currentBlock * 16 + wordsConsumedInBlock

/-- Embedding of ChaChaRng.setWordPos (src/index.ts lines 337-343): set the
block counter to wordOffset / 16, refill, and clamp the cursor to the word
offset within the block (the clamp mirrors Math.min(Math.max(w, 0), 64)). -/
def setWordPos (r : Rng) (wordOffset : Nat) : Rng :=
  let targetBlock := wordOffset / 16
  let wordIndexInBlock := wordOffset % 16
  let r1 := { r with core := setBlockPos r.core targetBlock }
  let r2 := refill r1
  { r2 with index := min (max wordIndexInBlock 0) 64 }

/-- Embedding of ChaChaRng.setStream (src/index.ts lines 345-350, the
primary variant): set the nonce, reset the block counter to zero, refill,
and reset the cursor to zero. -/
def setStream (r : Rng) (stream : Nat) : Rng :=
  let r1 := { r with core := setNonce r.core stream }
  let r2 := { r1 with core := setBlockPos r1.core 0 }
  let r3 := refill r2
  { r3 with index := 0 }

/-- Embedding of ChaChaRng.setStream from the position-preserving variant
(src/index.ts lines 622-628 and src/unnamed/part_000 lines 200-204): set
the nonce, then re-seek to the word position read before the refill. -/
def setStreamPreserving (r : Rng) (stream : Nat) : Rng :=
  let r1 := { r with core := setNonce r.core stream }
  let wp := getWordPos r1
  setWordPos r1 wp

/-- Embedding of ChaChaRng.getStream (src/index.ts lines 352-354). -/
def getStream (r : Rng) : Nat :=
  getNonce r.core

/-- Byte at a given byte offset of the word buffer, little-endian within
each 32-bit word, as read through the Uint8Array view over the buffer in
ChaChaRng.fillBytes (src/index.ts line 205). -/
def bufByte (buf : List Nat) (byteIdx : Nat) : Nat :=
  ((buf.getD (byteIdx / 4) 0) >>> (8 * (byteIdx % 4))) % 2 ^ 8

/-- Loop of ChaChaRng.fillBytes (src/index.ts lines 194-211), embedded with
a structural fuel argument: each iteration copies at least one byte, so a
fuel equal to the total byte count never runs out. Copies
min(remaining, bytesLeftInBuffer) bytes from the buffer (refilling first
when the cursor is exhausted) and advances the cursor by
Math.ceil(bytesToCopy / 4) = (bytesToCopy + 3) / 4 words. -/
def fillBytesGo : Nat → Rng → Nat → List Nat × Rng
  | _, r, 0 => ([], r)
  | 0, r, _ + 1 => ([], r)
  | fuel + 1, r, len + 1 =>
      let r1 := if r.index ≥ 64 then refill r else r
      let bufferRemainingBytes := (64 - r1.index) * 4
      let bytesToCopy := min (len + 1) bufferRemainingBytes
      let chunk := (List.range bytesToCopy).map (fun i => bufByte r1.buffer (r1.index * 4 + i))
      let r2 := { r1 with index := r1.index + (bytesToCopy + 3) / 4 }
      let p := fillBytesGo fuel r2 (len + 1 - bytesToCopy)
      (chunk ++ p.1, p.2)

/-- Embedding of ChaChaRng.fillBytes (src/index.ts lines 194-211) for a
request of len bytes: returns the filled bytes and the final state. -/
def fillBytes (r : Rng) (len : Nat) : List Nat × Rng :=
  fillBytesGo len r len

/-- Embedding of wmul64 (src/index.ts lines 13-18): 64x64 to 128 bit
widening multiply, returning the high and low 64-bit halves. -/
def wmul64 (a b : Nat) : Nat × Nat :=
  ((a * b) >>> 64, (a * b) % 2 ^ 64)

/-- Embedding of ChaChaRng.genRangeU64 (src/index.ts lines 219-256),
Canon's widening-multiply method. Returns none where the source throws.
On the non-throwing paths the subtractions high - 1 and
effectiveHigh - low + 1 never go below zero, so plain Nat subtraction
matches the bigint source; (-rangeSize) & U64_MASK is written as its
two's-complement value (2^64 - rangeSize) % 2^64. -/
def genRangeU64 (r : Rng) (low high : Nat) (inclusive : Bool) : Option Nat × Rng :=
  if ¬ inclusive ∧ ¬ low < high then (none, r)
  else if inclusive ∧ ¬ low ≤ high then (none, r)
  else
    let effectiveHigh := if inclusive then high else high - 1
    let rangeSize := (effectiveHigh - low + 1) % 2 ^ 64
    if rangeSize = 0 then
      let p := nextU64 r
      (some p.1, p.2)
    else
      let p1 := nextU64 r
      let m1 := wmul64 p1.1 rangeSize
      let negRange := (2 ^ 64 - rangeSize) % 2 ^ 64
      if m1.2 > negRange then
        let p2 := nextU64 p1.2
        let m2 := wmul64 p2.1 rangeSize
        let checkAdd := m1.2 + m2.1
        let finalResult := if checkAdd > 2 ^ 64 - 1 then (m1.1 + 1) % 2 ^ 64 else m1.1
        (some ((low + finalResult) % 2 ^ 64), p2.2)
      else
        (some ((low + m1.1) % 2 ^ 64), p1.2)

/-- Outcome of a range-sampling call: the source either throws, returns a
value, or (in the embedding of the unbounded rejection loop) runs out of
loop fuel. -/
inductive RangeOut (α : Type) where
  | thrown
  | exhausted
  | value (v : α)
deriving DecidableEq

/-- Rejection loop of ChaChaRng.genRangeU32 (src/index.ts lines 279-282):
draw words until one is below the limit, embedded with fuel; none signals
fuel exhaustion (the source loops on). -/
def drawReject : Nat → Rng → Nat → Option Nat × Rng
  | 0, r, _ => (none, r)
  | fuel + 1, r, limit =>
      let p := nextU32 r
      if p.1 ≥ limit then drawReject fuel p.2 limit else (some p.1, p.2)

/-- Embedding of ChaChaRng.genRangeU32 (src/index.ts lines 265-284). The
JavaScript expressions range_u32 - 1 (which yields the all-ones 32-bit
mask when range_u32 is 0) are written with their two's-complement wrap
(range_u32 + 2^32 - 1) % 2^32. -/
def genRangeU32 (fuel : Nat) (r : Rng) (low high : Nat) : RangeOut Nat × Rng :=
  if ¬ low < high then (.thrown, r)
  else
    let range := high - low
    if range = 0 then (.value low, r)
    else
      let range_u32 := range % 2 ^ 32
      if range_u32 &&& ((range_u32 + 2 ^ 32 - 1) % 2 ^ 32) = 0 then
        let mask := (range_u32 + 2 ^ 32 - 1) % 2 ^ 32
        let p := nextU32 r
        (.value ((low + (p.1 &&& mask)) % 2 ^ 32), p.2)
      else
        let rangeLimit := (2 ^ 32 - 1) - ((2 ^ 32 - 1) % range_u32)
        match drawReject fuel r rangeLimit with
        | (none, r2) => (.exhausted, r2)
        | (some x, r2) => (.value ((low + (x % range_u32)) % 2 ^ 32), r2)

/-- Embedding of ChaChaRng.genRangeI32 (src/index.ts lines 286-296):
validate, then delegate to genRangeU32 over [0, high - low) and shift by
low; a thrown or exhausted inner outcome propagates. -/
def genRangeI32 (fuel : Nat) (r : Rng) (low high : Int) : RangeOut Int × Rng :=
  if ¬ low < high then (.thrown, r)
  else
    let range := high - low
    if range ≤ 0 then (.value low, r)
    else
      let range_u32 := range.toNat % 2 ^ 32
      match genRangeU32 fuel r 0 range_u32 with
      | (.thrown, r2) => (.thrown, r2)
      | (.exhausted, r2) => (.exhausted, r2)
      | (.value v, r2) => (.value (low + v), r2)

/-- Embedding of ChaChaRng.genRangeI64 (src/index.ts lines 298-309):
validate, then delegate to the inclusive genRangeU64 over [0, range - 1]
and shift by low. -/
def genRangeI64 (r : Rng) (low high : Int) : RangeOut Int × Rng :=
  if ¬ low < high then (.thrown, r)
  else
    let range := high - low
    if range ≤ 0 then (.value low, r)
    else
      match genRangeU64 r 0 (range - 1).toNat true with
      | (none, r2) => (.thrown, r2)
      | (some v, r2) => (.value (low + v), r2)

/-- JavaScript double-precision values as far as the range-validation logic
observes them: NaN, the two infinities, and finite values (carried as exact
rationals; rounding plays no role in the properties proved here). -/
inductive JsFloat where
  | nan
  | posInf
  | negInf
  | num (q : ℚ)
deriving DecidableEq

/-- The JavaScript < comparison on JsFloat: NaN is not below anything and
nothing is below NaN. -/
def fltLt : JsFloat → JsFloat → Bool
  | .num a, .num b => decide (a < b)
  | .num _, .posInf => true
  | .negInf, .num _ => true
  | .negInf, .posInf => true
  | _, _ => false

/-- Number.isFinite on JsFloat. -/
def fltFinite : JsFloat → Bool
  | .num _ => true
  | _ => false

/-- Finite value carried by a JsFloat (0 for the non-finite cases, which
the callers below rule out before using it). -/
def fltVal : JsFloat → ℚ
  | .num q => q
  | _ => 0

/-- Embedding of ChaChaRng.genRangeF64 (src/index.ts lines 311-322):
validate the bounds (ordering, then finiteness), draw one 64-bit word,
keep its top 53 bits and scale into the range. The float arithmetic of the
success branch is carried out in exact rationals. -/
def genRangeF64 (r : Rng) (low high : JsFloat) : RangeOut JsFloat × Rng :=
  if ¬ fltLt low high then (.thrown, r)
  else if ¬ fltFinite low ∨ ¬ fltFinite high then (.thrown, r)
  else
    let p := nextU64 r
    let random53bit := p.1 >>> 11
    let scale : ℚ := (random53bit : ℚ) / ((2 : ℚ) ^ 53)
    (.value (.num (fltVal low + scale * (fltVal high - fltVal low))), p.2)

/-- Embedding of ChaChaRng.pcg32 (src/index.ts lines 163-172): one step of
the PCG-XSH-RR mixer used to expand a 64-bit seed, returning the output
word and the updated 64-bit state. JavaScript shift counts are taken
modulo 32 and the & 0xFFFFFFFF truncation is written as % 2^32. -/
def pcg32 (s : Nat) : Nat × Nat :=
  let s2 := (s * 6364136223846793005 + 11634580027462260723) % 2 ^ 64
  let xorshifted := (((s2 >>> 18) ^^^ s2) >>> 27) % 2 ^ 32
  let rot := (s2 >>> 59) % 2 ^ 5
  let x := ((xorshifted >>> rot) ||| ((xorshifted <<< ((32 - rot) % 32)) % 2 ^ 32)) % 2 ^ 32
  (x, s2)

/-- Seed bytes produced by the loop of ChaChaRng.fromU64Seed (src/index.ts
lines 152-161): each pcg32 output word is written little-endian into the
next four seed bytes. -/
def pcgSeedBytes : Nat → Nat → List Nat
  | 0, _ => []
  | n + 1, s =>
      let p := pcg32 s
      [p.1 % 2 ^ 8, (p.1 >>> 8) % 2 ^ 8, (p.1 >>> 16) % 2 ^ 8, (p.1 >>> 24) % 2 ^ 8] ++
        pcgSeedBytes n p.2

/-- Embedding of ChaChaRng.fromU64Seed (src/index.ts lines 152-161). -/
def fromU64Seed (state rounds : Nat) : Option Rng :=
  fromSeed (pcgSeedBytes 8 state) rounds

/-- Fallback generator used only to extract the value from option-returning
constructors at concrete, known-good inputs. -/
def defaultRng : Rng :=
  rngNew { state := List.replicate 16 0, rounds := 0 } 0

/-- The reference generator: all-zero 32-byte key, default all-zero 8-byte
nonce, 20 rounds. -/
def rng0 : Rng :=
  (fromSeed (List.replicate 32 0) 20).getD defaultRng

/-- Concrete generator obtained from the 64-bit seed 42 with 20 rounds, as
in the repository regression tests. -/
def rng42 : Rng :=
  (fromU64Seed 42 20).getD defaultRng

/-- Structural well-formedness of the core state used by the position
arithmetic: 16 words with the two counter words below 2^32. -/
abbrev CtrWF (c : Core) : Prop :=
  c.state.length = 16 ∧ c.state.getD 12 0 < 2 ^ 32 ∧ c.state.getD 13 0 < 2 ^ 32

/-- All buffered words are 32-bit values. -/
abbrev BufWF (r : Rng) : Prop :=
  ∀ w ∈ r.buffer, w < 2 ^ 32

/-- Reading an index that was just written returns the written value. -/
theorem getD_set_self (l : List Nat) (i : Nat) (h : i < l.length) (x d : Nat) :
    (l.set i x).getD i d = x := by
  rw [List.getD_eq_getElem?_getD, List.getElem?_set_self h]
  rfl

/-- Reading an index other than the one just written is unchanged. -/
theorem getD_set_ne {i j : Nat} (h : i ≠ j) (l : List Nat) (x d : Nat) :
    (l.set i x).getD j d = l.getD j d := by
  rw [List.getD_eq_getElem?_getD, List.getElem?_set_ne h, List.getD_eq_getElem?_getD]

/-- Rotation bridge: rotating right by 16 equals rotating left by 16. -/
theorem rotr32_eq_rotl32_16 (x : Nat) : rotr32 x 16 = rotl32 x 16 := by
  unfold rotr32 rotl32
  rw [Nat.shiftRight_eq_div_pow, Nat.shiftLeft_eq, Nat.or_comm]
  rw [show (x * 2 ^ 16) % 2 ^ 32 = 2 ^ 16 * (x % 2 ^ 16) by omega]
  rw [← Nat.mul_add_lt_is_or (show x % 2 ^ 32 / 2 ^ 16 < 2 ^ 16 by omega)]
  omega

/-- Rotation bridge: rotating right by 20 equals rotating left by 12. -/
theorem rotr32_eq_rotl32_20 (x : Nat) : rotr32 x 20 = rotl32 x 12 := by
  unfold rotr32 rotl32
  rw [Nat.shiftRight_eq_div_pow, Nat.shiftLeft_eq, Nat.or_comm]
  rw [show (x * 2 ^ 12) % 2 ^ 32 = 2 ^ 12 * (x % 2 ^ 20) by omega]
  rw [← Nat.mul_add_lt_is_or (show x % 2 ^ 32 / 2 ^ 20 < 2 ^ 12 by omega)]
  omega

/-- Rotation bridge: rotating right by 24 equals rotating left by 8. -/
theorem rotr32_eq_rotl32_24 (x : Nat) : rotr32 x 24 = rotl32 x 8 := by
  unfold rotr32 rotl32
  rw [Nat.shiftRight_eq_div_pow, Nat.shiftLeft_eq, Nat.or_comm]
  rw [show (x * 2 ^ 8) % 2 ^ 32 = 2 ^ 8 * (x % 2 ^ 24) by omega]
  rw [← Nat.mul_add_lt_is_or (show x % 2 ^ 32 / 2 ^ 24 < 2 ^ 8 by omega)]
  omega

/-- Rotation bridge: rotating right by 25 equals rotating left by 7. -/
theorem rotr32_eq_rotl32_25 (x : Nat) : rotr32 x 25 = rotl32 x 7 := by
  unfold rotr32 rotl32
  rw [Nat.shiftRight_eq_div_pow, Nat.shiftLeft_eq, Nat.or_comm]
  rw [show (x * 2 ^ 7) % 2 ^ 32 = 2 ^ 7 * (x % 2 ^ 25) by omega]
  rw [← Nat.mul_add_lt_is_or (show x % 2 ^ 32 / 2 ^ 25 < 2 ^ 7 by omega)]
  omega

/-- The quarter-round of the source equals the quarter-round written in the
specification: the two differ only in expressing each rotation as a right
rotation by 32 - k versus a left rotation by k. -/
theorem quarterRound_eq_spec (st : List Nat) (a b c d : Nat) :
    quarterRound st a b c d = specQuarterRound st a b c d := by
  simp only [quarterRound, specQuarterRound, rotr32_eq_rotl32_16,
    rotr32_eq_rotl32_20, rotr32_eq_rotl32_24, rotr32_eq_rotl32_25]

/-- One source double round equals one specification double round (column
round then diagonal round on the published index groups). -/
theorem coreRound_eq_spec (st : List Nat) :
    coreRound st = specDoubleRound st := by
  simp only [coreRound, specDoubleRound, specColumnRound, specDiagonalRound,
    quarterRound_eq_spec]

/-- Iterating the source double round any number of times equals iterating
the specification double round. -/
theorem coreRoundIter_eq_spec (n : Nat) (st : List Nat) :
    coreRoundIter n st = specPermute n st := by
  induction n generalizing st with
  | zero => rfl
  | succ n ih => rw [coreRoundIter, specPermute, coreRound_eq_spec, ih]

/-- C2: the source permutation runs exactly doubleRounds iterations, each a
column round on (0,4,8,12), (1,5,9,13), (2,6,10,14), (3,7,11,15) followed
by a diagonal round on (0,5,10,15), (1,6,11,12), (2,7,8,13), (3,4,9,14),
with each quarter-round computing the specification formula modulo 2^32;
the code's right rotations by 16/20/24/25 equal left rotations by
16/12/8/7, as the first conjunct states. -/
theorem permutation_matches_spec :
    (∀ x : Nat, rotr32 x 16 = rotl32 x 16 ∧ rotr32 x 20 = rotl32 x 12 ∧
      rotr32 x 24 = rotl32 x 8 ∧ rotr32 x 25 = rotl32 x 7) ∧
    ∀ (doubleRounds : Nat) (st : List Nat),
      coreRoundIter doubleRounds st = specPermute doubleRounds st :=
  ⟨fun x => ⟨rotr32_eq_rotl32_16 x, rotr32_eq_rotl32_20 x,
    rotr32_eq_rotl32_24 x, rotr32_eq_rotl32_25 x⟩,
   fun n st => coreRoundIter_eq_spec n st⟩

/-- C1: a generator built from the all-zero 32-byte key, the all-zero 8-byte
nonce and 20 rounds returns, over its first 16 nextU32 calls, exactly the
published IETF ChaCha20 reference vector. -/
theorem chacha20_zero_key_reference_vector :
    (fromSeed (List.replicate 32 0) 20).map (fun r => (nextN 16 r).1) =
      some [0xade0b876, 0x903df1a0, 0xe56a5d40, 0x28bd8653,
            0xb819d2bd, 0x1aed8da0, 0xccef36a8, 0xc70d778b,
            0x7c5941da, 0x8d485751, 0x3fe02477, 0x374ad8b8,
            0xf4b8436a, 0x1ca11815, 0x69b687c3, 0x8665eeb2] := by
  decide

/-- The 64-bit block counter as the pair of its 32-bit words. -/
theorem getBlockPos_eq (c : Core) (h12 : c.state.getD 12 0 < 2 ^ 32) :
    getBlockPos c = c.state.getD 13 0 * 2 ^ 32 + c.state.getD 12 0 := by
  unfold getBlockPos
  rw [Nat.shiftLeft_eq, Nat.mul_comm (c.state.getD 13 0) (2 ^ 32),
    ← Nat.mul_add_lt_is_or h12, Nat.mul_comm]

/-- The block counter is a 64-bit value. -/
theorem getBlockPos_lt (c : Core) (h : CtrWF c) : getBlockPos c < 2 ^ 64 := by
  rw [getBlockPos_eq c h.2.1]
  have h12 := h.2.1
  have h13 := h.2.2
  omega

/-- Closed form of the word position: buffer start block times 16 plus the
cursor, all modulo 2^68. -/
theorem getWordPos_eq (r : Rng) (hbp : getBlockPos r.core < 2 ^ 64)
    (hi : r.index ≤ 64) :
    getWordPos r = ((getBlockPos r.core + 2 ^ 64 - 4) * 16 + r.index) % 2 ^ 68 := by
  simp only [getWordPos]
  omega

/-- The word position always fits in 68 bits. -/
theorem getWordPos_lt (r : Rng) : getWordPos r < 2 ^ 68 := by
  simp only [getWordPos]
  omega

/-- Effect of incrCounter on the counter pair: plus one modulo 2^64. -/
theorem incrCounter_spec (st : List Nat) (hlen : st.length = 16)
    (h12 : st.getD 12 0 < 2 ^ 32) (h13 : st.getD 13 0 < 2 ^ 32) :
    (incrCounter st).length = 16 ∧
    (incrCounter st).getD 12 0 < 2 ^ 32 ∧ (incrCounter st).getD 13 0 < 2 ^ 32 ∧
    (incrCounter st).getD 13 0 * 2 ^ 32 + (incrCounter st).getD 12 0 =
      (st.getD 13 0 * 2 ^ 32 + st.getD 12 0 + 1) % 2 ^ 64 := by
  have h12l : (12 : Nat) < st.length := by omega
  have h13l : (13 : Nat) < st.length := by omega
  have h13l' : (13 : Nat) < (st.set 12 ((st.getD 12 0 + 1) % 2 ^ 32)).length := by
    simp [List.length_set]; omega
  unfold incrCounter
  simp only [getD_set_self st 12 h12l, getD_set_ne (show (12 : Nat) ≠ 13 by omega)]
  by_cases hz : (st.getD 12 0 + 1) % 2 ^ 32 = 0
  · rw [if_pos hz]
    simp only [List.length_set, getD_set_self _ 13 h13l',
      getD_set_ne (show (13 : Nat) ≠ 12 by omega),
      getD_set_self st 12 h12l, getD_set_ne (show (12 : Nat) ≠ 13 by omega)]
    refine ⟨hlen, by omega, by omega, ?_⟩
    omega
  · rw [if_neg hz]
    simp only [List.length_set, getD_set_self st 12 h12l,
      getD_set_ne (show (12 : Nat) ≠ 13 by omega)]
    refine ⟨hlen, by omega, by omega, ?_⟩
    omega

/-- Effect of the block loop on the counter pair: plus n modulo 2^64. -/
theorem generateGo_counter (dr : Nat) (n : Nat) :
    ∀ (st : List Nat), st.length = 16 →
    st.getD 12 0 < 2 ^ 32 → st.getD 13 0 < 2 ^ 32 →
    (generateGo dr n st).2.length = 16 ∧
    (generateGo dr n st).2.getD 12 0 < 2 ^ 32 ∧
    (generateGo dr n st).2.getD 13 0 < 2 ^ 32 ∧
    (generateGo dr n st).2.getD 13 0 * 2 ^ 32 + (generateGo dr n st).2.getD 12 0 =
      (st.getD 13 0 * 2 ^ 32 + st.getD 12 0 + n) % 2 ^ 64 := by
  induction n with
  | zero =>
      intro st hlen h12 h13
      simp only [generateGo]
      exact ⟨hlen, h12, h13, by omega⟩
  | succ n ih =>
      intro st hlen h12 h13
      obtain ⟨l1, b1, b2, hp⟩ := incrCounter_spec st hlen h12 h13
      obtain ⟨l2, c1, c2, hq⟩ := ih (incrCounter st) l1 b1 b2
      simp only [generateGo]
      exact ⟨l2, c1, c2, by rw [hq, hp]; omega⟩

/-- Effect of generate on the core: the counter advances by exactly four
blocks modulo 2^64 and well-formedness is preserved. -/
theorem generate_core (c : Core) (h : CtrWF c) :
    CtrWF (generate c).2 ∧
    getBlockPos (generate c).2 = (getBlockPos c + 4) % 2 ^ 64 := by
  obtain ⟨hlen, h12, h13⟩ := h
  obtain ⟨l2, c1, c2, hq⟩ := generateGo_counter c.rounds 4 c.state hlen h12 h13
  have h12l : (12 : Nat) < c.state.length := by omega
  have h13l : (13 : Nat) <
      (c.state.set 12 ((generateGo c.rounds 4 c.state).2.getD 12 0)).length := by
    simp [List.length_set]; omega
  have hg12 : (generate c).2.state.getD 12 0 = (generateGo c.rounds 4 c.state).2.getD 12 0 := by
    show ((c.state.set 12 _).set 13 _).getD 12 0 = _
    rw [getD_set_ne (show (13 : Nat) ≠ 12 by omega), getD_set_self _ 12 h12l]
  have hg13 : (generate c).2.state.getD 13 0 = (generateGo c.rounds 4 c.state).2.getD 13 0 := by
    show ((c.state.set 12 _).set 13 _).getD 13 0 = _
    rw [getD_set_self _ 13 h13l]
  have hglen : (generate c).2.state.length = 16 := by
    show ((c.state.set 12 _).set 13 _).length = 16
    simp [List.length_set, hlen]
  have hwf : CtrWF (generate c).2 := ⟨hglen, by rw [hg12]; exact c1, by rw [hg13]; exact c2⟩
  refine ⟨hwf, ?_⟩
  rw [getBlockPos_eq _ (by rw [hg12]; exact c1), hg12, hg13, hq,
    getBlockPos_eq c h12]

/-- Effect of refill on the generator: counter plus four, cursor zero. -/
theorem refill_core (r : Rng) (h : CtrWF r.core) :
    CtrWF (refill r).core ∧
    getBlockPos (refill r).core = (getBlockPos r.core + 4) % 2 ^ 64 ∧
    (refill r).index = 0 := by
  have h1 := generate_core r.core h
  exact ⟨h1.1, h1.2, rfl⟩

/-- Effect of setBlockPos: the counter becomes the value modulo 2^64. -/
theorem setBlockPos_spec (c : Core) (hlen : c.state.length = 16) (v : Nat) :
    CtrWF (setBlockPos c v) ∧ getBlockPos (setBlockPos c v) = v % 2 ^ 64 := by
  have h12l : (12 : Nat) < c.state.length := by omega
  have h13l : (13 : Nat) < (c.state.set 12 (v % 2 ^ 32)).length := by
    simp [List.length_set]; omega
  have hs12 : (setBlockPos c v).state.getD 12 0 = v % 2 ^ 32 := by
    show ((c.state.set 12 _).set 13 _).getD 12 0 = _
    rw [getD_set_ne (show (13 : Nat) ≠ 12 by omega), getD_set_self _ 12 h12l]
  have hs13 : (setBlockPos c v).state.getD 13 0 = (v >>> 32) % 2 ^ 32 := by
    show ((c.state.set 12 _).set 13 _).getD 13 0 = _
    rw [getD_set_self _ 13 h13l]
  have hslen : (setBlockPos c v).state.length = 16 := by
    show ((c.state.set 12 _).set 13 _).length = 16
    simp [List.length_set, hlen]
  have hwf : CtrWF (setBlockPos c v) :=
    ⟨hslen, by rw [hs12]; omega, by rw [hs13]; omega⟩
  refine ⟨hwf, ?_⟩
  rw [getBlockPos_eq _ (by rw [hs12]; omega), hs12, hs13,
    Nat.shiftRight_eq_div_pow]
  omega

/-- State reached by setWordPos: counter pos/16 + 4 modulo 2^64 after the
forced refill, cursor pos mod 16. -/
theorem setWordPos_state (r : Rng) (pos : Nat) (h : CtrWF r.core) :
    CtrWF (setWordPos r pos).core ∧
    getBlockPos (setWordPos r pos).core = ((pos / 16) % 2 ^ 64 + 4) % 2 ^ 64 ∧
    (setWordPos r pos).index = pos % 16 := by
  have h1 := setBlockPos_spec r.core h.1 (pos / 16)
  have h2 := refill_core { r with core := setBlockPos r.core (pos / 16) } h1.1
  refine ⟨h2.1, ?_, ?_⟩
  · have : getBlockPos (setWordPos r pos).core =
        getBlockPos (refill { r with core := setBlockPos r.core (pos / 16) }).core := rfl
    rw [this, h2.2.1, h1.2]
  · show min (max (pos % 16) 0) 64 = pos % 16
    omega

/-- C5: setting the word position to any pos below 2^68 makes getWordPos
report exactly pos, and re-seeking to the currently reported position
never changes the reported position. -/
theorem setWordPos_getWordPos (r : Rng) (pos : Nat) (h : CtrWF r.core) :
    (pos < 2 ^ 68 → getWordPos (setWordPos r pos) = pos) ∧
    getWordPos (setWordPos r (getWordPos r)) = getWordPos r := by
  have main : ∀ p : Nat, p < 2 ^ 68 → getWordPos (setWordPos r p) = p := by
    intro p hp
    obtain ⟨hwf, hbp, hidx⟩ := setWordPos_state r p h
    rw [getWordPos_eq _ (getBlockPos_lt _ hwf) (by rw [hidx]; omega), hbp, hidx]
    omega
  exact ⟨main pos, main (getWordPos r) (getWordPos_lt r)⟩

/-- Consuming words while the buffer lasts only moves the cursor. -/
theorem nextN_no_refill (n : Nat) : ∀ (r : Rng), r.index + n ≤ 64 →
    (nextN n r).2 = { r with index := r.index + n } := by
  induction n with
  | zero =>
      intro r _
      show r = { r with index := r.index + 0 }
      cases r
      rfl
  | succ n ih =>
      intro r h
      have hnext : (nextU32 r).2 = { r with index := r.index + 1 } := by
        simp only [nextU32, if_neg (show ¬ r.index ≥ 64 by omega)]
      have : (nextN (n + 1) r).2 = (nextN n (nextU32 r).2).2 := rfl
      rw [this, hnext, ih { r with index := r.index + 1 } (by simp; omega)]
      show _ = { r with index := r.index + (n + 1) }
      simp only []
      congr 1
      omega

/-- C6: after seeking to 2^68 - 64 and consuming exactly 64 words, the
reported word position is 0: the 68-bit position space wraps because the
64-bit block counter wrapped during the refill triggered by the seek. -/
theorem wordPos_wraps_at_2_pow_68 (r : Rng) (h : CtrWF r.core) :
    getWordPos (nextN 64 (setWordPos r (2 ^ 68 - 64))).2 = 0 := by
  obtain ⟨hwf, hbp, hidx⟩ := setWordPos_state r (2 ^ 68 - 64) h
  set s := setWordPos r (2 ^ 68 - 64) with hs
  have hbp0 : getBlockPos s.core = 0 := by rw [hbp]; omega
  have hidx0 : s.index = 0 := by rw [hidx]; omega
  have hstep := nextN_no_refill 64 s (by omega)
  rw [hstep]
  have hcore : ({ s with index := s.index + 64 } : Rng).core = s.core := rfl
  rw [getWordPos_eq _ (by rw [hcore, hbp0]; omega)
    (show s.index + 64 ≤ 64 by omega)]
  show ((getBlockPos s.core + 2 ^ 64 - 4) * 16 + (s.index + 64)) % 2 ^ 68 = 0
  rw [hbp0, hidx0]
  omega

/-- Every default read of a list whose members are bounded is bounded. -/
theorem getD_lt_of_forall (l : List Nat) (m : Nat) (hm : 0 < m)
    (h : ∀ b ∈ l, b < m) (i : Nat) : l.getD i 0 < m := by
  rw [List.getD_eq_getElem?_getD]
  cases hq : l[i]? with
  | none => exact hm
  | some w => exact h w (List.getElem?_mem hq)

/-- C3 counterexample: with the all-zero key and the 12-byte nonce whose
first byte is 1 (little-endian value 1), the constructed counter is 2^32,
not the value 1 that loading the first four nonce bytes into the low
counter word would give: the code loads them into the high word. -/
theorem nonce12_counter_counterexample :
    (coreNew (List.replicate 32 0) (1 :: List.replicate 11 0) 20).map getBlockPos =
      some (2 ^ 32) ∧
    leU32 (1 :: List.replicate 11 0) 0 = 1 ∧ (2 ^ 32 : Nat) ≠ 1 := by
  decide

/-- C3 amended: for every 32-byte key and 12-byte nonce, construction loads
the first 4 nonce bytes (little-endian) into the HIGH 32-bit word of the
block counter (so the counter starts at that value times 2^32, low word
zero) and the remaining 8 bytes (little-endian) into the 64-bit stream. -/
theorem coreNew_nonce12_layout (seed nonce : List Nat) (rounds : Nat)
    (hseed : seed.length = 32) (hnonce : nonce.length = 12)
    (hbytes : ∀ b ∈ nonce, b < 2 ^ 8) :
    ∃ c, coreNew seed nonce rounds = some c ∧
      c.state.getD 12 0 = 0 ∧ c.state.getD 13 0 = leU32 nonce 0 ∧
      getBlockPos c = leU32 nonce 0 * 2 ^ 32 ∧
      getNonce c = leU32 nonce 8 * 2 ^ 32 + leU32 nonce 4 := by
  have hb : ∀ i, nonce.getD i 0 < 2 ^ 8 :=
    getD_lt_of_forall nonce (2 ^ 8) (by omega) hbytes
  have hle4 : leU32 nonce 4 < 2 ^ 32 := by
    have h1 := hb 4; have h2 := hb (4 + 1); have h3 := hb (4 + 2); have h4 := hb (4 + 3)
    unfold leU32; omega
  set st0 := [(0x61707865 : Nat), 0x3320646e, 0x79622d32, 0x6b206574] ++
      (List.range 8).map (fun i => leU32 seed (i * 4)) ++ [0, 0, 0, 0] with hst0
  have hl0 : st0.length = 16 := by simp [hst0]
  set S := (((st0.set 13 (leU32 nonce 0)).set 14 (leU32 nonce 4)).set 15
      (leU32 nonce 8)).set 12 0 with hS
  have hnew : coreNew seed nonce rounds = some { state := S, rounds := rounds / 2 } := by
    simp [coreNew, hseed, hnonce, hst0, hS]
  have hXlen : 12 < ((((st0.set 13 (leU32 nonce 0)).set 14 (leU32 nonce 4)).set 15
      (leU32 nonce 8))).length := by
    simp [List.length_set, hl0]
  have h12 : S.getD 12 0 = 0 := by
    rw [hS]; exact getD_set_self _ 12 hXlen 0 0
  have h13 : S.getD 13 0 = leU32 nonce 0 := by
    rw [hS, getD_set_ne (show (12 : Nat) ≠ 13 by omega),
      getD_set_ne (show (15 : Nat) ≠ 13 by omega),
      getD_set_ne (show (14 : Nat) ≠ 13 by omega)]
    exact getD_set_self st0 13 (by rw [hl0]; omega) _ 0
  have h14 : S.getD 14 0 = leU32 nonce 4 := by
    rw [hS, getD_set_ne (show (12 : Nat) ≠ 14 by omega),
      getD_set_ne (show (15 : Nat) ≠ 14 by omega)]
    exact getD_set_self _ 14 (by simp [List.length_set, hl0]) _ 0
  have h15 : S.getD 15 0 = leU32 nonce 8 := by
    rw [hS, getD_set_ne (show (12 : Nat) ≠ 15 by omega)]
    exact getD_set_self _ 15 (by simp [List.length_set, hl0]) _ 0
  refine ⟨{ state := S, rounds := rounds / 2 }, hnew, h12, h13, ?_, ?_⟩
  · unfold getBlockPos
    show S.getD 13 0 <<< 32 ||| S.getD 12 0 = _
    rw [h13, h12, Nat.or_zero, Nat.shiftLeft_eq]
  · unfold getNonce
    show S.getD 15 0 <<< 32 ||| S.getD 14 0 = _
    rw [h15, h14, Nat.shiftLeft_eq,
      Nat.mul_comm (leU32 nonce 8) (2 ^ 32), ← Nat.mul_add_lt_is_or hle4]

/-- C10 counterexample: with a 12-byte nonce whose first byte is 1, the
freshly constructed generator reports word position 2^36, not 0, because
the initial block counter is 2^32 rather than 0. -/
theorem fresh_wordPos_counterexample :
    (coreNew (List.replicate 32 0) (1 :: List.replicate 11 0) 20).map
      (fun c => getWordPos (rngNew c 20)) = some (2 ^ 36) ∧ (2 ^ 36 : Nat) ≠ 0 := by
  decide

/-- C10 amended: a freshly constructed generator whose initial block
counter is zero (every 8-byte nonce, and every 12-byte nonce with zero
first word) reports word position 0, through the mod-2^64 wrap of
(0 - 4) plus the four blocks' worth of cursor offset at cursor 64. -/
theorem fresh_wordPos_zero (seed nonce : List Nat) (rounds : Nat)
    (h : (coreNew seed nonce rounds).map getBlockPos = some 0) :
    (coreNew seed nonce rounds).map (fun c => getWordPos (rngNew c rounds)) = some 0 := by
  cases hc : coreNew seed nonce rounds with
  | none => rw [hc] at h; exact absurd h (by simp)
  | some c =>
      rw [hc] at h
      simp only [Option.map_some'] at h
      show some (getWordPos (rngNew c rounds)) = some 0
      have hz : getBlockPos c = 0 := by exact Option.some_inj.mp h
      have hw : getWordPos (rngNew c rounds) = 0 := by
        rw [getWordPos_eq _ (show getBlockPos (rngNew c rounds).core < 2 ^ 64 by
            show getBlockPos c < 2 ^ 64; rw [hz]; omega)
          (show (rngNew c rounds).index ≤ 64 from by exact Nat.le_refl 64)]
        show ((getBlockPos c + 2 ^ 64 - 4) * 16 + 64) % 2 ^ 68 = 0
        rw [hz]
        omega
      rw [hw]

/-- C4 evidence: after consuming 32 words the reference generator reports
position 32, but the primary setStream resets the reported position to 0
(while correctly storing the new stream id); the position-preserving
variant of the same repository keeps it at 32, as do the repository's own
tests. -/
theorem setStream_resets_wordPos :
    getWordPos (nextN 32 rng0).2 = 32 ∧
    getWordPos (setStream (nextN 32 rng0).2 51) = 0 ∧
    getStream (setStream (nextN 32 rng0).2 51) = 51 ∧
    getWordPos (setStreamPreserving (nextN 32 rng0).2 51) = 32 := by
  decide

/-- Refilling with an exhausted cursor does not move the word position:
the counter gains four blocks while the cursor drops by 64 words. -/
theorem refill_pos (r : Rng) (h : CtrWF r.core) (hi : r.index = 64) :
    getWordPos (refill r) = getWordPos r := by
  obtain ⟨hwf, hbp, hidx⟩ := refill_core r h
  rw [getWordPos_eq _ (getBlockPos_lt _ hwf) (by rw [hidx]; omega),
    getWordPos_eq r (getBlockPos_lt _ h) (by omega), hbp, hidx, hi]
  have := getBlockPos_lt r.core h
  omega

/-- Position accounting of the fillBytes loop: the final word position is
the initial one advanced by the ceiling of the byte count over 4, modulo
2^68, and the structural invariants are preserved. -/
theorem fillBytesGo_pos (fuel : Nat) : ∀ (len : Nat) (r : Rng), len ≤ fuel →
    CtrWF r.core → r.index ≤ 64 →
    CtrWF (fillBytesGo fuel r len).2.core ∧
    (fillBytesGo fuel r len).2.index ≤ 64 ∧
    getWordPos (fillBytesGo fuel r len).2 = (getWordPos r + (len + 3) / 4) % 2 ^ 68 := by
  induction fuel with
  | zero =>
      intro len r hlf hwf hi
      have hz : len = 0 := by omega
      subst hz
      simp only [fillBytesGo]
      exact ⟨hwf, hi, by have := getWordPos_lt r; omega⟩
  | succ fuel ih =>
      intro len r hlf hwf hi
      cases len with
      | zero =>
          simp only [fillBytesGo]
          exact ⟨hwf, hi, by have := getWordPos_lt r; omega⟩
      | succ len =>
          suffices hstep : ∀ r1 : Rng, CtrWF r1.core → r1.index < 64 →
              getWordPos r1 = getWordPos r →
              CtrWF (fillBytesGo fuel
                { r1 with index := r1.index + (min (len + 1) ((64 - r1.index) * 4) + 3) / 4 }
                (len + 1 - min (len + 1) ((64 - r1.index) * 4))).2.core ∧
              (fillBytesGo fuel
                { r1 with index := r1.index + (min (len + 1) ((64 - r1.index) * 4) + 3) / 4 }
                (len + 1 - min (len + 1) ((64 - r1.index) * 4))).2.index ≤ 64 ∧
              getWordPos (fillBytesGo fuel
                { r1 with index := r1.index + (min (len + 1) ((64 - r1.index) * 4) + 3) / 4 }
                (len + 1 - min (len + 1) ((64 - r1.index) * 4))).2 =
                (getWordPos r + (len + 1 + 3) / 4) % 2 ^ 68 by
            by_cases hge : r.index ≥ 64
            · simp only [fillBytesGo]
              rw [if_pos hge]
              obtain ⟨ha, hb, hc⟩ := refill_core r hwf
              exact hstep (refill r) ha (by omega) (refill_pos r hwf (by omega))
            · simp only [fillBytesGo]
              rw [if_neg hge]
              exact hstep r hwf (by omega) rfl
          intro r1 h1wf h1i h1pos
          set B := min (len + 1) ((64 - r1.index) * 4) with hB
          have hBge : 1 ≤ B := by rw [hB]; omega
          have hBle : B ≤ (64 - r1.index) * 4 := by rw [hB]; omega
          have h2wf : CtrWF ({ r1 with index := r1.index + (B + 3) / 4 } : Rng).core := h1wf
          have h2i : ({ r1 with index := r1.index + (B + 3) / 4 } : Rng).index ≤ 64 := by
            show r1.index + (B + 3) / 4 ≤ 64
            omega
          have h2pos : getWordPos ({ r1 with index := r1.index + (B + 3) / 4 } : Rng) =
              (getWordPos r1 + (B + 3) / 4) % 2 ^ 68 := by
            rw [getWordPos_eq ({ r1 with index := r1.index + (B + 3) / 4 } : Rng)
                (getBlockPos_lt _ h2wf) h2i,
              getWordPos_eq r1 (getBlockPos_lt _ h1wf) (by omega)]
            show ((getBlockPos r1.core + 2 ^ 64 - 4) * 16 + (r1.index + (B + 3) / 4)) % 2 ^ 68 = _
            have := getBlockPos_lt r1.core h1wf
            omega
          obtain ⟨h3wf, h3i, h3pos⟩ :=
            ih (len + 1 - B) { r1 with index := r1.index + (B + 3) / 4 } (by omega) h2wf h2i
          refine ⟨h3wf, h3i, ?_⟩
          rw [h3pos, h2pos, h1pos]
          have hlt := getWordPos_lt r
          have hcase : B = len + 1 ∨ B = (64 - r1.index) * 4 := by rw [hB]; omega
          omega

/-- C7: a fillBytes request of len bytes advances the reported word
position by exactly the ceiling of len over 4, modulo 2^68 — a partially
consumed word retires the whole word. -/
theorem fillBytes_advances_ceil (r : Rng) (len : Nat)
    (hwf : CtrWF r.core) (hi : r.index ≤ 64) :
    getWordPos (fillBytes r len).2 = (getWordPos r + (len + 3) / 4) % 2 ^ 68 :=
  (fillBytesGo_pos len len r (Nat.le_refl len) hwf hi).2.2

/-- C7 witness at the reference generator and a 25-byte request. -/
theorem fillBytes_advances_ceil_witness :
    CtrWF rng0.core ∧ rng0.index ≤ 64 ∧
    getWordPos (fillBytes rng0 25).2 = (getWordPos rng0 + 7) % 2 ^ 68 :=
  ⟨by decide, by decide, fillBytes_advances_ceil rng0 25 (by decide) (by decide)⟩

/-- C5 witness at the reference generator and position 12345. -/
theorem setWordPos_getWordPos_witness :
    CtrWF rng0.core ∧ getWordPos (setWordPos rng0 12345) = 12345 :=
  ⟨by decide, (setWordPos_getWordPos rng0 12345 (by decide)).1 (by norm_num)⟩

/-- C6 witness at the reference generator. -/
theorem wordPos_wraps_witness :
    CtrWF rng0.core ∧ getWordPos (nextN 64 (setWordPos rng0 (2 ^ 68 - 64))).2 = 0 :=
  ⟨by decide, wordPos_wraps_at_2_pow_68 rng0 (by decide)⟩

/-- C3 witness at the all-sevens 12-byte nonce. -/
theorem coreNew_nonce12_layout_witness :
    ∃ c, coreNew (List.replicate 32 0) (List.replicate 12 7) 20 = some c ∧
      c.state.getD 12 0 = 0 ∧
      c.state.getD 13 0 = leU32 (List.replicate 12 7) 0 ∧
      getBlockPos c = leU32 (List.replicate 12 7) 0 * 2 ^ 32 ∧
      getNonce c = leU32 (List.replicate 12 7) 8 * 2 ^ 32 + leU32 (List.replicate 12 7) 4 :=
  coreNew_nonce12_layout (List.replicate 32 0) (List.replicate 12 7) 20
    (by decide) (by decide) (by decide)

/-- C10 witness at the default 8-byte zero nonce. -/
theorem fresh_wordPos_zero_witness :
    (coreNew (List.replicate 32 0) (List.replicate 8 0) 20).map
      (fun c => getWordPos (rngNew c 20)) = some 0 :=
  fresh_wordPos_zero (List.replicate 32 0) (List.replicate 8 0) 20 (by decide)

/-- Every word produced by the block loop is a 32-bit value. -/
theorem generateGo_out_lt (dr : Nat) (n : Nat) : ∀ (st : List Nat),
    ∀ w ∈ (generateGo dr n st).1, w < 2 ^ 32 := by
  induction n with
  | zero =>
      intro st w hw
      simp only [generateGo, List.not_mem_nil] at hw
  | succ n ih =>
      intro st w hw
      simp only [generateGo, List.mem_append] at hw
      rcases hw with hw | hw
      · simp only [generateBlock, List.mem_map] at hw
        obtain ⟨i, _, rfl⟩ := hw
        exact Nat.mod_lt _ (by omega)
      · exact ih (incrCounter st) w hw

/-- A refill leaves only 32-bit words in the buffer. -/
theorem BufWF_refill (r : Rng) : BufWF (refill r) := by
  intro w hw
  exact generateGo_out_lt r.core.rounds 4 r.core.state w hw

/-- One nextU32 call returns a 32-bit value and preserves buffer
well-formedness. -/
theorem nextU32_spec (r : Rng) (h : BufWF r) :
    (nextU32 r).1 < 2 ^ 32 ∧ BufWF (nextU32 r).2 := by
  unfold nextU32
  by_cases hge : r.index ≥ 64
  · rw [if_pos hge]
    constructor
    · show (refill r).buffer.getD (refill r).index 0 < 2 ^ 32
      exact getD_lt_of_forall _ _ (by omega) (BufWF_refill r) _
    · show BufWF { refill r with index := (refill r).index + 1 }
      exact fun w hw => BufWF_refill r w hw
  · rw [if_neg hge]
    constructor
    · show r.buffer.getD r.index 0 < 2 ^ 32
      exact getD_lt_of_forall _ _ (by omega) h _
    · show BufWF { r with index := r.index + 1 }
      exact fun w hw => h w hw

/-- One nextU64 call returns a 64-bit value and preserves buffer
well-formedness. -/
theorem nextU64_spec (r : Rng) (h : BufWF r) :
    (nextU64 r).1 < 2 ^ 64 ∧ BufWF (nextU64 r).2 := by
  obtain ⟨v1, b1⟩ := nextU32_spec r h
  obtain ⟨v2, b2⟩ := nextU32_spec (nextU32 r).2 b1
  constructor
  · show (nextU32 (nextU32 r).2).1 <<< 32 ||| (nextU32 r).1 < 2 ^ 64
    exact Nat.or_lt_two_pow (by rw [Nat.shiftLeft_eq]; omega) (by omega)
  · exact b2

/-- High half of the widening multiply is below the range size. -/
theorem canon_hi_lt (x rs : Nat) (hx : x < 2 ^ 64) (hrs : 0 < rs) :
    (x * rs) >>> 64 < rs := by
  rw [Nat.shiftRight_eq_div_pow]
  have h1 : x * rs ≤ (2 ^ 64 - 1) * rs := Nat.mul_le_mul_right rs (by omega)
  omega

/-- When the bias-check fires, even the incremented high half stays below
the range size: the increment can never reach the bound. -/
theorem canon_hi_incr_lt (x rs : Nat) (hx : x < 2 ^ 64)
    (hlo : (x * rs) % 2 ^ 64 > (2 ^ 64 - rs) % 2 ^ 64)
    (hrs : 0 < rs) (hrs2 : rs < 2 ^ 64) :
    (x * rs) >>> 64 + 1 < rs := by
  rw [Nat.shiftRight_eq_div_pow]
  have h1 : x * rs ≤ (2 ^ 64 - 1) * rs := Nat.mul_le_mul_right rs (by omega)
  omega

/-- C8: for 64-bit bounds, genRangeU64 always succeeds on valid bounds and
every returned value lies in [low, high) for the exclusive form and in
[low, high] for the inclusive form; in particular the bias-correction
increment never pushes the result to or past the upper bound. -/
theorem genRangeU64_in_range (r : Rng) (low high : Nat)
    (hbuf : BufWF r) (hhigh : high < 2 ^ 64) :
    (low < high → ∃ v r2, genRangeU64 r low high false = (some v, r2) ∧
      low ≤ v ∧ v < high) ∧
    (low ≤ high → ∃ v r2, genRangeU64 r low high true = (some v, r2) ∧
      low ≤ v ∧ v ≤ high) := by
  have hx := nextU64_spec r hbuf
  have hy := nextU64_spec (nextU64 r).2 hx.2
  constructor
  · intro hlh
    unfold genRangeU64
    rw [if_neg (by simp [hlh]), if_neg (by simp)]
    simp only [Bool.false_eq_true, if_false]
    rw [show (high - 1 - low + 1) % 2 ^ 64 = high - low by omega]
    rw [if_neg (show ¬ high - low = 0 by omega)]
    simp only [wmul64]
    by_cases hbias :
        ((nextU64 r).1 * (high - low)) % 2 ^ 64 > (2 ^ 64 - (high - low)) % 2 ^ 64
    · rw [if_pos hbias]
      have hhi := canon_hi_lt (nextU64 r).1 (high - low) hx.1 (by omega)
      have hinc := canon_hi_incr_lt (nextU64 r).1 (high - low) hx.1 hbias
        (by omega) (by omega)
      rw [Nat.shiftRight_eq_div_pow] at hhi hinc
      by_cases hover :
          ((nextU64 r).1 * (high - low)) % 2 ^ 64 +
            ((nextU64 (nextU64 r).2).1 * (high - low)) >>> 64 > 2 ^ 64 - 1
      · rw [if_pos hover]
        refine ⟨_, _, rfl, ?_, ?_⟩ <;>
          simp only [Nat.shiftRight_eq_div_pow] <;> omega
      · rw [if_neg hover]
        refine ⟨_, _, rfl, ?_, ?_⟩ <;>
          simp only [Nat.shiftRight_eq_div_pow] <;> omega
    · rw [if_neg hbias]
      have hhi := canon_hi_lt (nextU64 r).1 (high - low) hx.1 (by omega)
      rw [Nat.shiftRight_eq_div_pow] at hhi
      refine ⟨_, _, rfl, ?_, ?_⟩ <;>
        simp only [Nat.shiftRight_eq_div_pow] <;> omega
  · intro hle
    unfold genRangeU64
    rw [if_neg (by simp), if_neg (by simp [hle])]
    simp only [if_true]
    by_cases h0 : (high - low + 1) % 2 ^ 64 = 0
    · rw [if_pos h0]
      exact ⟨_, _, rfl, by omega, by have := hx.1; omega⟩
    · rw [if_neg h0]
      rw [show (high - low + 1) % 2 ^ 64 = high - low + 1 by omega]
      simp only [wmul64]
      by_cases hbias :
          ((nextU64 r).1 * (high - low + 1)) % 2 ^ 64 >
            (2 ^ 64 - (high - low + 1)) % 2 ^ 64
      · rw [if_pos hbias]
        have hhi := canon_hi_lt (nextU64 r).1 (high - low + 1) hx.1 (by omega)
        have hinc := canon_hi_incr_lt (nextU64 r).1 (high - low + 1) hx.1 hbias
          (by omega) (by omega)
        rw [Nat.shiftRight_eq_div_pow] at hhi hinc
        by_cases hover :
            ((nextU64 r).1 * (high - low + 1)) % 2 ^ 64 +
              ((nextU64 (nextU64 r).2).1 * (high - low + 1)) >>> 64 > 2 ^ 64 - 1
        · rw [if_pos hover]
          refine ⟨_, _, rfl, ?_, ?_⟩ <;>
            simp only [Nat.shiftRight_eq_div_pow] <;> omega
        · rw [if_neg hover]
          refine ⟨_, _, rfl, ?_, ?_⟩ <;>
            simp only [Nat.shiftRight_eq_div_pow] <;> omega
      · rw [if_neg hbias]
        have hhi := canon_hi_lt (nextU64 r).1 (high - low + 1) hx.1 (by omega)
        rw [Nat.shiftRight_eq_div_pow] at hhi
        refine ⟨_, _, rfl, ?_, ?_⟩ <;>
          simp only [Nat.shiftRight_eq_div_pow] <;> omega

/-- C8 witness at the seed-42 generator over [0, 1024). -/
theorem genRangeU64_in_range_witness :
    BufWF rng42 ∧ (1024 : Nat) < 2 ^ 64 ∧
    ∃ v r2, genRangeU64 rng42 0 1024 false = (some v, r2) ∧ 0 ≤ v ∧ v < 1024 :=
  ⟨by decide, by norm_num,
    (genRangeU64_in_range rng42 0 1024 (by decide) (by norm_num)).1 (by norm_num)⟩

/-- Invalid bounds make genRangeU64 fail without touching the state. -/
theorem genRangeU64_invalid (r : Rng) (low high : Nat) (inclusive : Bool)
    (h : (inclusive = true ∧ high < low) ∨ (inclusive = false ∧ high ≤ low)) :
    genRangeU64 r low high inclusive = (none, r) := by
  unfold genRangeU64
  cases inclusive with
  | false =>
      rcases h with ⟨h1, _⟩ | ⟨_, h2⟩
      · exact absurd h1 (by simp)
      · rw [if_pos (show ¬ (false = true) ∧ ¬ low < high from ⟨by simp, by omega⟩)]
  | true =>
      rcases h with ⟨_, h2⟩ | ⟨h1, _⟩
      · rw [if_neg (by simp),
          if_pos (show (true = true) ∧ ¬ low ≤ high from ⟨rfl, by omega⟩)]
      · exact absurd h1 (by simp)

/-- Valid bounds make genRangeU64 return a value. -/
theorem genRangeU64_valid_some (r : Rng) (low high : Nat) (inclusive : Bool)
    (h : (inclusive = true ∧ low ≤ high) ∨ (inclusive = false ∧ low < high)) :
    (genRangeU64 r low high inclusive).1 ≠ none := by
  unfold genRangeU64
  cases inclusive with
  | false =>
      rcases h with ⟨h1, _⟩ | ⟨_, h2⟩
      · exact absurd h1 (by simp)
      · rw [if_neg (by simp [h2]), if_neg (by simp)]
        simp only [Bool.false_eq_true, if_false]
        split
        · simp
        · split <;> simp
  | true =>
      rcases h with ⟨_, h2⟩ | ⟨h1, _⟩
      · rw [if_neg (by simp), if_neg (by simp [h2])]
        simp only [if_true]
        split
        · simp
        · split <;> simp
      · exact absurd h1 (by simp)

/-- Invalid bounds make genRangeU32 fail without touching the state. -/
theorem genRangeU32_invalid (fuel : Nat) (r : Rng) (low high : Nat)
    (h : high ≤ low) : genRangeU32 fuel r low high = (.thrown, r) := by
  unfold genRangeU32
  rw [if_pos (by omega)]

/-- Valid bounds keep genRangeU32 from the thrown outcome. -/
theorem genRangeU32_valid_not_thrown (fuel : Nat) (r : Rng) (low high : Nat)
    (h : low < high) : (genRangeU32 fuel r low high).1 ≠ RangeOut.thrown := by
  unfold genRangeU32
  rw [if_neg (by omega)]
  dsimp only
  split
  · simp
  · split
    · simp
    · split <;> simp

/-- Invalid bounds make genRangeI32 fail without touching the state. -/
theorem genRangeI32_invalid (fuel : Nat) (r : Rng) (low high : Int)
    (h : high ≤ low) : genRangeI32 fuel r low high = (.thrown, r) := by
  unfold genRangeI32
  rw [if_pos (by omega)]

/-- Valid i32 bounds keep genRangeI32 from the thrown outcome. -/
theorem genRangeI32_valid_not_thrown (fuel : Nat) (r : Rng) (low high : Int)
    (hlo : -(2 ^ 31) ≤ low) (hhi : high ≤ 2 ^ 31 - 1) (h : low < high) :
    (genRangeI32 fuel r low high).1 ≠ RangeOut.thrown := by
  unfold genRangeI32
  rw [if_neg (by omega), if_neg (show ¬ high - low ≤ 0 by omega)]
  have hnt := genRangeU32_valid_not_thrown fuel r 0 ((high - low).toNat % 2 ^ 32)
    (by omega)
  dsimp only
  split
  next heq => exact absurd (by rw [heq]) hnt
  next => simp
  next => simp

/-- Invalid bounds make genRangeI64 fail without touching the state. -/
theorem genRangeI64_invalid (r : Rng) (low high : Int)
    (h : high ≤ low) : genRangeI64 r low high = (.thrown, r) := by
  unfold genRangeI64
  rw [if_pos (by omega)]

/-- Valid bounds keep genRangeI64 from the thrown outcome. -/
theorem genRangeI64_valid_not_thrown (r : Rng) (low high : Int)
    (h : low < high) : (genRangeI64 r low high).1 ≠ RangeOut.thrown := by
  unfold genRangeI64
  rw [if_neg (by omega), if_neg (show ¬ high - low ≤ 0 by omega)]
  have hns := genRangeU64_valid_some r 0 ((high - low - 1).toNat) true
    (Or.inl ⟨rfl, Nat.zero_le _⟩)
  split
  next heq => exact absurd (by rw [heq]) hns
  next => simp

/-- The genRangeF64 throw condition and its state effect. -/
theorem genRangeF64_thrown_iff (r : Rng) (low high : JsFloat) :
    ((genRangeF64 r low high).1 = RangeOut.thrown ↔
      (fltLt low high = false ∨ fltFinite low = false ∨ fltFinite high = false)) ∧
    ((genRangeF64 r low high).1 = RangeOut.thrown → (genRangeF64 r low high).2 = r) := by
  unfold genRangeF64
  by_cases h1 : fltLt low high = true
  · rw [if_neg (by simp [h1])]
    by_cases h2 : fltFinite low = true
    · by_cases h3 : fltFinite high = true
      · rw [if_neg (by simp [h2, h3])]
        constructor
        · simp [h1, h2, h3]
        · intro h; simp at h
      · rw [if_pos (by simp [h3])]
        exact ⟨by simp [h3], fun _ => rfl⟩
    · rw [if_pos (Or.inl (by simp [h2]))]
      exact ⟨by simp [h2], fun _ => rfl⟩
  · rw [if_pos (by simp [h1])]
    have hfl : fltLt low high = false := by
      revert h1; cases fltLt low high <;> simp
    exact ⟨by simp [hfl], fun _ => rfl⟩

/-- C9: each of the five range operations throws exactly when its bounds
are invalid (low at or above high for the exclusive forms, low above high
for the inclusive form, not-below or non-finite bounds for the float
form), and a throwing call leaves the generator state untouched. The i32
conjunct assumes bounds within the 32-bit signed range. -/
theorem rangeOps_throw_iff :
    (∀ (fuel : Nat) (r : Rng) (low high : Nat),
      ((genRangeU32 fuel r low high).1 = RangeOut.thrown ↔ high ≤ low) ∧
      ((genRangeU32 fuel r low high).1 = RangeOut.thrown →
        (genRangeU32 fuel r low high).2 = r)) ∧
    (∀ (fuel : Nat) (r : Rng) (low high : Int), -(2 ^ 31) ≤ low → high ≤ 2 ^ 31 - 1 →
      ((genRangeI32 fuel r low high).1 = RangeOut.thrown ↔ high ≤ low) ∧
      ((genRangeI32 fuel r low high).1 = RangeOut.thrown →
        (genRangeI32 fuel r low high).2 = r)) ∧
    (∀ (r : Rng) (low high : Nat) (inclusive : Bool),
      ((genRangeU64 r low high inclusive).1 = none ↔
        (inclusive = true ∧ high < low) ∨ (inclusive = false ∧ high ≤ low)) ∧
      ((genRangeU64 r low high inclusive).1 = none →
        (genRangeU64 r low high inclusive).2 = r)) ∧
    (∀ (r : Rng) (low high : Int),
      ((genRangeI64 r low high).1 = RangeOut.thrown ↔ high ≤ low) ∧
      ((genRangeI64 r low high).1 = RangeOut.thrown →
        (genRangeI64 r low high).2 = r)) ∧
    (∀ (r : Rng) (low high : JsFloat),
      ((genRangeF64 r low high).1 = RangeOut.thrown ↔
        (fltLt low high = false ∨ fltFinite low = false ∨ fltFinite high = false)) ∧
      ((genRangeF64 r low high).1 = RangeOut.thrown →
        (genRangeF64 r low high).2 = r)) := by
  refine ⟨fun fuel r low high => ?_, fun fuel r low high hlo hhi => ?_,
    fun r low high incl => ?_, fun r low high => ?_, fun r low high => ?_⟩
  · by_cases hge : high ≤ low
    · have he := genRangeU32_invalid fuel r low high hge
      rw [he]
      exact ⟨⟨fun _ => hge, fun _ => rfl⟩, fun _ => rfl⟩
    · have hnt := genRangeU32_valid_not_thrown fuel r low high (by omega)
      exact ⟨⟨fun h => absurd h hnt, fun h => absurd h hge⟩, fun h => absurd h hnt⟩
  · by_cases hge : high ≤ low
    · have he := genRangeI32_invalid fuel r low high hge
      rw [he]
      exact ⟨⟨fun _ => hge, fun _ => rfl⟩, fun _ => rfl⟩
    · have hnt := genRangeI32_valid_not_thrown fuel r low high hlo hhi (by omega)
      exact ⟨⟨fun h => absurd h hnt, fun h => absurd h hge⟩, fun h => absurd h hnt⟩
  · cases incl with
    | false =>
        by_cases hge : high ≤ low
        · have he := genRangeU64_invalid r low high false (Or.inr ⟨rfl, hge⟩)
          rw [he]
          exact ⟨⟨fun _ => Or.inr ⟨rfl, hge⟩, fun _ => rfl⟩, fun _ => rfl⟩
        · have hns := genRangeU64_valid_some r low high false (Or.inr ⟨rfl, by omega⟩)
          refine ⟨⟨fun h => absurd h hns, fun h => ?_⟩, fun h => absurd h hns⟩
          rcases h with ⟨h1, _⟩ | ⟨_, h2⟩
          · exact absurd h1 (by simp)
          · exact absurd h2 hge
    | true =>
        by_cases hge : high < low
        · have he := genRangeU64_invalid r low high true (Or.inl ⟨rfl, hge⟩)
          rw [he]
          exact ⟨⟨fun _ => Or.inl ⟨rfl, hge⟩, fun _ => rfl⟩, fun _ => rfl⟩
        · have hns := genRangeU64_valid_some r low high true (Or.inl ⟨rfl, by omega⟩)
          refine ⟨⟨fun h => absurd h hns, fun h => ?_⟩, fun h => absurd h hns⟩
          rcases h with ⟨_, h2⟩ | ⟨h1, _⟩
          · exact absurd h2 hge
          · exact absurd h1 (by simp)
  · by_cases hge : high ≤ low
    · have he := genRangeI64_invalid r low high hge
      rw [he]
      exact ⟨⟨fun _ => hge, fun _ => rfl⟩, fun _ => rfl⟩
    · have hnt := genRangeI64_valid_not_thrown r low high (by omega)
      exact ⟨⟨fun h => absurd h hnt, fun h => absurd h hge⟩, fun h => absurd h hnt⟩
  · exact genRangeF64_thrown_iff r low high

/-- C9 witness: the i32 operation at bounds 5 and -3 throws and leaves the
reference generator untouched. -/
theorem rangeOps_throw_iff_witness :
    (genRangeI32 8 rng0 5 (-3)).1 = RangeOut.thrown ∧
    (genRangeI32 8 rng0 5 (-3)).2 = rng0 := by
  have h := rangeOps_throw_iff.2.1 8 rng0 5 (-3) (by norm_num) (by norm_num)
  exact ⟨h.1.mpr (by norm_num), h.2 (h.1.mpr (by norm_num))⟩

/-- Regression pin from the repository tests: first 64-bit draw of the
generator seeded from the 64-bit value 42. -/
theorem fromU64Seed_42_pin : (nextU64 rng42).1 = 9482535800248027256 := by
  decide

/-- Regression pin from the repository tests: first bounded draw below 1024
of the generator seeded from the 64-bit value 42 equals 526. -/
theorem genRangeU64_42_pin : (genRangeU64 rng42 0 1024 false).1 = some 526 := by
  decide

/-- Regression pin from the repository tests: the seed with byte 1 set to
0xff reproduces the published third-block vector after skipping 32 words,
and the reported position is then 48. -/
theorem chacha20_block2_pin :
    (nextN 16 (nextN 32 ((fromSeed (0 :: 0xff :: List.replicate 30 0) 20).getD
      defaultRng)).2).1 =
      [0xfb4dd572, 0x4bc42ef1, 0xdf922636, 0x327f1394, 0xa78dea8f, 0x5e269039,
       0xa1bebbc1, 0xcaf09aae, 0xa25ab213, 0x48a6b46c, 0x1b9d9bcb, 0x092c5be6,
       0x546ca624, 0x1bec45d5, 0x87f47473, 0x96f0992e] ∧
    getWordPos (nextN 48 ((fromSeed (0 :: 0xff :: List.replicate 30 0) 20).getD
      defaultRng)).2 = 48 := by
  decide

/-- Regression pin from the repository tests: the first 32 bytes of the
zero-key stream as bytes. -/
theorem fillBytes_zero_key_pin :
    (fillBytes rng0 32).1 =
      [118, 184, 224, 173, 160, 241, 61, 144, 64, 93, 106, 229, 83, 134, 189, 40,
       189, 210, 25, 184, 160, 141, 237, 26, 168, 54, 239, 204, 139, 119, 13, 199] := by
  decide

end ChaChaRand
